import Mathlib

/-!
Verification of the subtitle-generation pipeline.

Shallow embedding of `modules/transcriber.py` (`transcribe_audio`,
`split_into_short_lines`, `split_at_punctuation`), `modules/utils.py`
(`format_time`, `burn_subtitles_into_video`) and
`modules/video_processor.py` (`process_video`).

Conventions of the embedding:
* Python strings are `List Char`; Python floats are modelled as exact
  rationals `ℚ`.
* `str.strip()` is `strip`, dropping whitespace from both ends.
* Recognition words/batches/segments are structures mirroring the dicts
  used in the source (`word`/`start`/`end`, `text`/`result`,
  `text`/`start`/`end`).  The Python key `"end"` is a Lean keyword and is
  rendered `endTime`.
* Side-effecting orchestration (`transcribe_audio`, `process_video`) is
  embedded by making the outcome of each external effect an explicit
  boolean/stream parameter; the function body then mirrors the source's
  control flow on those parameters.
-/

namespace SubGen

/-- ASCII whitespace as recognised by Python's `str.strip` / `str.isspace`. -/
def isSpace (c : Char) : Bool :=
  c == ' ' || c == '\t' || c == '\n' || c == '\r' ||
    c == Char.ofNat 11 || c == Char.ofNat 12

/-- The sentence-terminal punctuation class `[.!?]` of
`re.search(r'[.!?]', ...)` and `re.split(r'([.!?])', ...)`. -/
def isPunct (c : Char) : Bool :=
  c == '.' || c == '!' || c == '?'

/-- Python `str.lstrip()`. -/
def lstrip (cs : List Char) : List Char := cs.dropWhile isSpace

/-- Python `str.rstrip()`. -/
def rstrip (cs : List Char) : List Char := (cs.reverse.dropWhile isSpace).reverse

/-- Python `str.strip()`. -/
def strip (cs : List Char) : List Char := rstrip (lstrip cs)

/-- One recognised word of a Vosk result: keys `"word"`, `"start"`, `"end"`. -/
structure Word where
  word : List Char
  start : ℚ
  endTime : ℚ
  deriving Repr, DecidableEq

/-- One recognition result (batch) as stored in `raw_segments`:
keys `"text"` and `"result"` (the word list). -/
structure RawSegment where
  text : List Char
  result : List Word
  deriving Repr, DecidableEq

/-- A subtitle segment dict: keys `"text"`, `"start"`, `"end"`. -/
structure Segment where
  text : List Char
  start : ℚ
  endTime : ℚ
  deriving Repr, DecidableEq

/-- `current_line[-1]["end"]`: the end time of the last buffered word
(`0` as an irrelevant default for the empty buffer, which the source
never queries). -/
def lastEnd (l : List Word) : ℚ :=
  match l.getLast? with
  | some w => w.endTime
  | none => 0

/-- The `for word in words` loop of `split_into_short_lines`
(transcriber.py lines 83-112), including the trailing flush of
lines 106-112.  State: remaining words, `current_line`, `current_text`,
`line_start_time`. -/
def lineLoop (maxLen : Nat) (maxDur : ℚ) :
    List Word → List Word → List Char → ℚ → List Segment
  | [], curLine, curText, lineStart =>
    if curLine.isEmpty then []
    else [⟨strip curText, lineStart, lastEnd curLine⟩]
  | w :: ws, curLine, curText, lineStart =>
    if (curText ++ w.word).length > maxLen ∨ w.endTime - lineStart > maxDur then
      (if curLine.isEmpty then []
       else [⟨strip curText, lineStart, lastEnd curLine⟩]) ++
        lineLoop maxLen maxDur ws [w] (w.word ++ [' ']) w.start
    else
      lineLoop maxLen maxDur ws (curLine ++ [w]) (curText ++ w.word ++ [' ']) lineStart

/-- `split_into_short_lines` (transcriber.py lines 67-114).  Batches with
an empty (or missing) `"result"` are skipped; otherwise the word loop runs
with `line_start_time = words[0]["start"]`. -/
def split_into_short_lines (raw_segments : List RawSegment)
    (maxLen : Nat) (maxDur : ℚ) : List Segment :=
  (raw_segments.map fun rs =>
    match rs.result with
    | [] => []
    | w :: ws => lineLoop maxLen maxDur (w :: ws) [] [] w.start).flatten

/-- `text.any` test of `re.search(r'[.!?]', text)`. -/
def hasPunct (cs : List Char) : Bool := cs.any isPunct

/-- The grouping performed by `re.split(r'([.!?])', text)` followed by the
pairing loop of transcriber.py lines 132-137: returns the list of
text-plus-punctuation groups together with the trailing remainder after
the last punctuation mark.  `buf` is the text accumulated since the last
mark. -/
def punctGroups (buf : List Char) : List Char → List (List Char) × List Char
  | [] => ([], buf)
  | c :: rest =>
    if isPunct c then
      let r := punctGroups [] rest
      ((buf ++ [c]) :: r.1, r.2)
    else
      punctGroups (buf ++ [c]) rest

/-- `sentences[-1] += sentence_parts[-1]` (transcriber.py lines 139-141):
the trailing remainder is appended to the last group. -/
def addToLast (gs : List (List Char)) (tr : List Char) : List (List Char) :=
  match gs with
  | [] => []
  | [g] => [g ++ tr]
  | g :: g' :: gs' => g :: addToLast (g' :: gs') tr

/-- The `sentences` list built in transcriber.py lines 129-141 for a text
that contains at least one `[.!?]` mark. -/
def sentencesOf (cs : List Char) : List (List Char) :=
  let r := punctGroups [] cs
  addToLast r.1 r.2

/-- The emission loop of transcriber.py lines 158-172: walk the sentences,
skipping whitespace-only ones, assigning each emitted run
`len(sentence) * time_per_char` of time starting at `current_time`. -/
def emitRuns (t tpc : ℚ) : List (List Char) → List Segment
  | [] => []
  | s :: rest =>
    if strip s = [] then emitRuns t tpc rest
    else
      ⟨strip s, t, t + s.length * tpc⟩ :: emitRuns (t + s.length * tpc) tpc rest

/-- The body of the `for segment in segments` loop of
`split_at_punctuation` (transcriber.py lines 120-172) for one segment. -/
def splitSegment (seg : Segment) : List Segment :=
  if hasPunct seg.text = false then [seg]
  else
    let sentences := sentencesOf seg.text
    if sentences = [] then [seg]
    else
      let total : Nat := (sentences.map List.length).sum
      if total = 0 then [seg]
      else
        let tpc : ℚ := (seg.endTime - seg.start) / total
        emitRuns seg.start tpc sentences

/-- `split_at_punctuation` (transcriber.py lines 116-174). -/
def split_at_punctuation (segments : List Segment) : List Segment :=
  (segments.map splitSegment).flatten

/-- Python `int(q)` on a float: truncation toward zero. -/
def pyTrunc (q : ℚ) : ℤ := if 0 ≤ q then ⌊q⌋ else ⌈q⌉

/-- Python `a % b` on floats (floor-based remainder). -/
def pyMod (a b : ℚ) : ℚ := a - b * ⌊a / b⌋

/-- Python `f"{n:0wd}"` for a non-negative integer: decimal digits padded
with leading zeros to at least `w` characters. -/
def padNum (w : Nat) (n : ℤ) : String :=
  let s := toString n
  if s.length < w then String.mk (List.replicate (w - s.length) '0') ++ s else s

/-- `format_time` (utils.py lines 106-116). -/
def format_time (seconds : ℚ) : String :=
  let hours := pyTrunc (seconds / 3600)
  let s1 := pyMod seconds 3600
  let minutes := pyTrunc (s1 / 60)
  let s2 := pyMod s1 60
  let milliseconds := pyTrunc ((s2 - pyTrunc s2) * 1000)
  let secs := pyTrunc s2
  padNum 2 hours ++ ":" ++ padNum 2 minutes ++ ":" ++ padNum 2 secs ++ "," ++
    padNum 3 milliseconds

/-- The spec's statement of the time-formatting algorithm (spec §4.4):
successive floor/modulo, milliseconds truncated by floor. -/
def formatTimeSpec (seconds : ℚ) : String :=
  let hours := ⌊seconds / 3600⌋
  let r1 := seconds - 3600 * hours
  let minutes := ⌊r1 / 60⌋
  let r2 := r1 - 60 * minutes
  let secs := ⌊r2⌋
  let milliseconds := ⌊(r2 - secs) * 1000⌋
  padNum 2 hours ++ ":" ++ padNum 2 minutes ++ ":" ++ padNum 2 secs ++ "," ++
    padNum 3 milliseconds

/-- The audio-stream header data read from `wave.open` that
`transcribe_audio` inspects. -/
structure AudioStream where
  nchannels : Nat
  sampwidth : Nat
  comptype : String
  deriving Repr, DecidableEq

/-- `transcribe_audio` (transcriber.py lines 9-65), with every external
effect made explicit: `modelLoads` is whether `Model(model_dir)` succeeds
(on failure it raises, the `except` catches and the function returns
`[]`); `wf` is the opened stream's header; `recResults` is the sequence
of results the recognizer produces over the whole stream (chunk results
followed by the final result).  The source appends exactly those results
whose `"text"` is non-empty after stripping; on a bad audio format it
reports an error and returns `[]`. -/
def transcribe_audio (modelLoads : Bool) (wf : AudioStream)
    (recResults : List RawSegment) : List RawSegment :=
  if modelLoads = false then []
  else if wf.nchannels ≠ 1 ∨ wf.sampwidth ≠ 2 ∨ wf.comptype ≠ "NONE" then []
  else recResults.filter fun r => strip r.text ≠ []

/-- `burn_subtitles_into_video` (utils.py lines 136-243): three ffmpeg
strategies are tried in order; the first whose subprocess succeeds and
leaves a non-empty output file returns the output path, and if all three
fail a `RuntimeError` is raised (modelled as `.error`). -/
def burn_subtitles_into_video (attempt1 attempt2 attempt3 : Bool)
    (outputPath : String) : Except String String :=
  if attempt1 then .ok outputPath
  else if attempt2 then .ok outputPath
  else if attempt3 then .ok outputPath
  else .error "Failed to burn subtitles after multiple attempts."

/-- The result record assembled by `process_video`
(video_processor.py lines 95-101). -/
structure ProcessResult where
  output_video_path : String
  srt_path : String
  project_srt_path : String
  segments : List Segment
  subtitle_burned : Bool
  deriving Repr, DecidableEq

/-- `process_video` (video_processor.py lines 12-109), with external
effects explicit: `tempDir`/`baseName` stand for the temp directory and
the video's base filename, `rawSegments` for what `transcribe_audio`
returned, `srtOk` for whether `create_srt_file` succeeded (it raises on
failure, which the outer `except` turns into `None`), and
`a1 a2 a3` for the three burn attempts.  Burn-in failure is caught:
`subtitle_burned` stays false and the returned video path falls back to
the input video. -/
def process_video (videoPath tempDir baseName : String)
    (rawSegments : List RawSegment) (maxLen : Nat) (maxDur : ℚ)
    (srtOk : Bool) (a1 a2 a3 : Bool) : Option ProcessResult :=
  let srtPath := tempDir ++ "/" ++ baseName ++ ".srt"
  let projectSrtPath := "output/subtitles/" ++ baseName ++ ".srt"
  let outputVideoPath := "output/videos/" ++ baseName ++ "_with_subs.mp4"
  if rawSegments = [] then none
  else
    let segments := split_at_punctuation
      (split_into_short_lines rawSegments maxLen maxDur)
    if segments = [] then none
    else if srtOk = false then none
    else
      match burn_subtitles_into_video a1 a2 a3 outputVideoPath with
      | .ok p => some ⟨p, srtPath, projectSrtPath, segments, true⟩
      | .error _ => some ⟨videoPath, srtPath, projectSrtPath, segments, false⟩

/-! ### Basic facts about stripping -/

theorem isSpace_of_isPunct {c : Char} (h : isPunct c = true) : isSpace c = false := by
  simp only [isPunct, Bool.or_eq_true, beq_iff_eq] at h
  rcases h with (h | h) | h <;> subst h <;> rfl

theorem mem_dropWhile_of_neg {α : Type} {c : α} {p : α → Bool} {cs : List α}
    (h : c ∈ cs) (hc : p c = false) : c ∈ cs.dropWhile p := by
  induction cs with
  | nil => simp at h
  | cons d cs ih =>
    rw [List.dropWhile_cons]
    by_cases hd : p d = true
    · rw [if_pos hd]
      rcases List.mem_cons.1 h with rfl | h'
      · rw [hd] at hc; cases hc
      · exact ih h'
    · rw [if_neg hd]; exact h

theorem mem_lstrip {c : Char} {cs : List Char} (h : c ∈ cs)
    (hc : isSpace c = false) : c ∈ lstrip cs :=
  mem_dropWhile_of_neg h hc

theorem mem_rstrip {c : Char} {cs : List Char} (h : c ∈ cs)
    (hc : isSpace c = false) : c ∈ rstrip cs := by
  unfold rstrip
  rw [List.mem_reverse]
  exact mem_dropWhile_of_neg (List.mem_reverse.2 h) hc

theorem mem_strip {c : Char} {cs : List Char} (h : c ∈ cs)
    (hc : isSpace c = false) : c ∈ strip cs :=
  mem_rstrip (mem_lstrip h hc) hc

theorem strip_ne_nil_of_mem {c : Char} {cs : List Char} (h : c ∈ cs)
    (hc : isSpace c = false) : strip cs ≠ [] :=
  fun hn => by simpa [hn] using mem_strip h hc

theorem countP_dropWhile {α : Type} (p q : α → Bool) (cs : List α)
    (hpq : ∀ c, p c = true → q c = false) :
    List.countP p (cs.dropWhile q) = List.countP p cs := by
  conv_rhs => rw [← List.takeWhile_append_dropWhile q cs]
  rw [List.countP_append]
  have h0 : List.countP p (cs.takeWhile q) = 0 := by
    rw [List.countP_eq_zero]
    intro a ha hpa
    have := List.mem_takeWhile_imp ha
    rw [hpq a hpa] at this; cases this
  omega

theorem countP_lstrip (p : Char → Bool) (cs : List Char)
    (hpq : ∀ c, p c = true → isSpace c = false) :
    List.countP p (lstrip cs) = List.countP p cs :=
  countP_dropWhile p isSpace cs hpq

theorem countP_rstrip (p : Char → Bool) (cs : List Char)
    (hpq : ∀ c, p c = true → isSpace c = false) :
    List.countP p (rstrip cs) = List.countP p cs := by
  unfold rstrip
  rw [List.countP_reverse, countP_dropWhile p isSpace _ hpq, List.countP_reverse]

theorem countP_strip (p : Char → Bool) (cs : List Char)
    (hpq : ∀ c, p c = true → isSpace c = false) :
    List.countP p (strip cs) = List.countP p cs := by
  unfold strip
  rw [countP_rstrip p _ hpq, countP_lstrip p _ hpq]

theorem lstrip_eq_self {cs : List Char}
    (h : ∀ c, cs.head? = some c → isSpace c = false) : lstrip cs = cs := by
  cases cs with
  | nil => rfl
  | cons c cs =>
    unfold lstrip
    rw [List.dropWhile_cons, if_neg]
    rw [h c rfl]; simp

theorem rstrip_eq_self {cs : List Char}
    (h : ∀ c, cs.getLast? = some c → isSpace c = false) : rstrip cs = cs := by
  induction cs using List.reverseRecOn with
  | nil => rfl
  | append_singleton cs c _ =>
    unfold rstrip
    rw [List.reverse_append, List.reverse_singleton, List.singleton_append,
      List.dropWhile_cons, if_neg, List.reverse_cons, List.reverse_reverse]
    rw [h c (List.getLast?_concat cs)]; simp

theorem rstrip_append_space (cs : List Char) :
    rstrip (cs ++ [' ']) = rstrip cs := by
  unfold rstrip
  rw [List.reverse_append, List.reverse_singleton, List.singleton_append,
    List.dropWhile_cons, if_pos]
  rfl

theorem dropWhile_idem {α : Type} (p : α → Bool) (l : List α) :
    (l.dropWhile p).dropWhile p = l.dropWhile p := by
  cases hd : l.dropWhile p with
  | nil => rfl
  | cons d ds =>
    rw [List.dropWhile_cons, if_neg]
    have := List.head?_dropWhile_not p l
    rw [hd] at this
    simp only [List.head?_cons] at this
    simpa using this

theorem lstrip_idem (cs : List Char) : lstrip (lstrip cs) = lstrip cs :=
  dropWhile_idem isSpace cs

theorem rstrip_idem (cs : List Char) : rstrip (rstrip cs) = rstrip cs := by
  unfold rstrip
  rw [List.reverse_reverse, dropWhile_idem]

theorem rstrip_prefix (cs : List Char) : ∃ sp : List Char,
    cs = rstrip cs ++ sp ∧ ∀ c ∈ sp, isSpace c = true := by
  refine ⟨(cs.reverse.takeWhile isSpace).reverse, ?_, ?_⟩
  · unfold rstrip
    conv_lhs => rw [← List.reverse_reverse cs,
      ← List.takeWhile_append_dropWhile isSpace cs.reverse]
    rw [List.reverse_append]
  · intro c hc
    exact List.mem_takeWhile_imp (List.mem_reverse.1 hc)

theorem lstrip_rstrip_of_lstripped {cs : List Char} (h : lstrip cs = cs) :
    lstrip (rstrip cs) = rstrip cs := by
  obtain ⟨sp, hsp, _⟩ := rstrip_prefix cs
  cases hr : rstrip cs with
  | nil => rfl
  | cons d ds =>
    rw [hr] at hsp
    have hd : isSpace d = false := by
      unfold lstrip at h
      have h' := List.dropWhile_eq_self_iff.1 h
      rw [hsp] at h'
      have := h' (by simp)
      simpa using this
    unfold lstrip
    rw [List.dropWhile_cons, if_neg (by simp [hd])]

theorem strip_idem (cs : List Char) : strip (strip cs) = strip cs := by
  unfold strip
  rw [lstrip_rstrip_of_lstripped (lstrip_idem cs), rstrip_idem]

/-! ### Time formatting (claim C4) -/

theorem pyTrunc_of_nonneg {q : ℚ} (h : 0 ≤ q) : pyTrunc q = ⌊q⌋ := if_pos h

theorem pyMod_nonneg {a b : ℚ} (hb : 0 < b) : 0 ≤ pyMod a b := by
  unfold pyMod
  have h1 : (⌊a / b⌋ : ℚ) ≤ a / b := Int.floor_le _
  have key : b * (a / b) = a := by field_simp
  nlinarith

theorem format_time_eq_spec {q : ℚ} (hq : 0 ≤ q) :
    format_time q = formatTimeSpec q := by
  have h0 : 0 ≤ q / 3600 := by positivity
  have h2 : 0 ≤ pyMod q 3600 / 60 := by
    have h1 : 0 ≤ pyMod q 3600 := pyMod_nonneg (by norm_num)
    positivity
  have h3 : 0 ≤ pyMod (pyMod q 3600) 60 := pyMod_nonneg (by norm_num)
  have h4 : 0 ≤ (pyMod (pyMod q 3600) 60 - (⌊pyMod (pyMod q 3600) 60⌋ : ℚ)) * 1000 := by
    have := Int.floor_le (pyMod (pyMod q 3600) 60)
    nlinarith
  simp only [pyMod] at h2 h3 h4
  simp only [format_time, formatTimeSpec, pyMod, pyTrunc_of_nonneg h0,
    pyTrunc_of_nonneg h2, pyTrunc_of_nonneg h3, pyTrunc_of_nonneg h4]

/-- C4: `format_time` renders `12.345` s as `00:00:12,345` and `3661.5` s
as `01:01:01,500`, and on every non-negative input it computes its four
fields by successive floor/modulo with milliseconds truncated (floor),
exactly as the spec's time-formatting algorithm states. -/
theorem format_time_correct :
    format_time (12345/1000) = "00:00:12,345" ∧
    format_time (7323/2) = "01:01:01,500" ∧
    ∀ q : ℚ, 0 ≤ q → format_time q = formatTimeSpec q := by
  refine ⟨?_, ?_, fun q hq => format_time_eq_spec hq⟩
  · norm_num [format_time, pyTrunc, pyMod]
    rfl
  · norm_num [format_time, pyTrunc, pyMod]
    rfl

/-- Witness for C4: the universally quantified clause applied at the
concrete input `2` seconds. -/
theorem format_time_correct_witness :
    format_time 2 = formatTimeSpec 2 :=
  format_time_correct.2.2 2 (by norm_num)

/-! ### Concrete segmenter scenario (claim C5) -/

/-- C5: on the single batch `hi`(0,0.5) `there`(0.6,1.0) `friend`(1.1,1.6)
with `max_line_length = 8` and `max_line_duration = 3.0`,
`split_into_short_lines` returns exactly the two segments
`("hi there", 0.0, 1.0)` and `("friend", 1.1, 1.6)`: the projected line
"hi there" of exactly 8 characters is accepted, and only the projection
"hi there friend" strictly exceeding 8 triggers a flush. -/
theorem split_into_short_lines_boundary_example :
    split_into_short_lines
      [⟨[], [⟨['h','i'], 0, 1/2⟩, ⟨['t','h','e','r','e'], 3/5, 1⟩,
             ⟨['f','r','i','e','n','d'], 11/10, 8/5⟩]⟩] 8 3 =
      [⟨['h','i',' ','t','h','e','r','e'], 0, 1⟩,
       ⟨['f','r','i','e','n','d'], 11/10, 8/5⟩] := by
  norm_num [split_into_short_lines, lineLoop, lastEnd, strip, lstrip, rstrip,
    isSpace, List.dropWhile]
  decide

/-! ### Structure of the sentence split -/

theorem punctGroups_flatten (cs : List Char) : ∀ buf : List Char,
    ((punctGroups buf cs).1).flatten ++ (punctGroups buf cs).2 = buf ++ cs := by
  induction cs with
  | nil => intro buf; simp [punctGroups]
  | cons c rest ih =>
    intro buf
    unfold punctGroups
    by_cases hc : isPunct c = true
    · rw [if_pos hc]
      simp only [List.flatten_cons, List.append_assoc]
      rw [ih []]
      simp
    · rw [if_neg hc]
      rw [ih (buf ++ [c])]
      simp

theorem punctGroups_length (cs : List Char) : ∀ buf : List Char,
    ((punctGroups buf cs).1).length = List.countP isPunct cs := by
  induction cs with
  | nil => intro buf; simp [punctGroups]
  | cons c rest ih =>
    intro buf
    unfold punctGroups
    rw [List.countP_cons]
    by_cases hc : isPunct c = true
    · rw [if_pos hc]
      simp only [List.length_cons]
      rw [ih []]
      simp [hc]
    · rw [if_neg hc]
      rw [ih (buf ++ [c])]
      simp [hc]

theorem punctGroups_counts (cs : List Char) : ∀ buf : List Char,
    List.countP isPunct buf = 0 →
    (∀ g ∈ (punctGroups buf cs).1, List.countP isPunct g = 1) ∧
      List.countP isPunct (punctGroups buf cs).2 = 0 := by
  induction cs with
  | nil =>
    intro buf hbuf
    exact ⟨by simp [punctGroups], by simpa [punctGroups] using hbuf⟩
  | cons c rest ih =>
    intro buf hbuf
    unfold punctGroups
    by_cases hc : isPunct c = true
    · rw [if_pos hc]
      obtain ⟨ih1, ih2⟩ := ih [] (by simp)
      refine ⟨?_, by simpa using ih2⟩
      intro g hg
      simp only [List.mem_cons] at hg
      rcases hg with rfl | hg
      · rw [List.countP_append, hbuf]
        simp [List.countP_cons, hc]
      · exact ih1 g hg
    · rw [if_neg hc]
      exact ih (buf ++ [c])
        (by rw [List.countP_append, hbuf]; simp [List.countP_cons, hc])

theorem addToLast_length (tr : List Char) : ∀ gs : List (List Char),
    (addToLast gs tr).length = gs.length := by
  intro gs
  induction gs with
  | nil => rfl
  | cons g gs ih =>
    cases gs with
    | nil => rfl
    | cons g' gs' => simpa [addToLast] using ih

theorem addToLast_flatten (tr : List Char) : ∀ gs : List (List Char), gs ≠ [] →
    (addToLast gs tr).flatten = gs.flatten ++ tr := by
  intro gs
  induction gs with
  | nil => intro h; cases h rfl
  | cons g gs ih =>
    intro _
    cases gs with
    | nil => simp [addToLast]
    | cons g' gs' =>
      simp only [addToLast, List.flatten_cons]
      rw [ih (by simp)]
      simp

theorem addToLast_counts (tr : List Char) (htr : List.countP isPunct tr = 0) :
    ∀ gs : List (List Char), (∀ g ∈ gs, List.countP isPunct g = 1) →
    ∀ s ∈ addToLast gs tr, List.countP isPunct s = 1 := by
  intro gs
  induction gs with
  | nil => intro _ s hs; simp [addToLast] at hs
  | cons g gs ih =>
    intro hg s hs
    cases gs with
    | nil =>
      simp only [addToLast, List.mem_singleton] at hs
      subst hs
      rw [List.countP_append, htr, hg g (by simp)]
    | cons g' gs' =>
      simp only [addToLast, List.mem_cons] at hs
      rcases hs with rfl | hs
      · exact hg s (by simp)
      · exact ih (fun x hx => hg x (List.mem_cons_of_mem g hx)) s hs

theorem hasPunct_iff_countP {cs : List Char} :
    hasPunct cs = true ↔ 0 < List.countP isPunct cs := by
  rw [hasPunct, List.any_eq_true, List.countP_pos]

theorem sentencesOf_length {cs : List Char} (hp : hasPunct cs = true) :
    (sentencesOf cs).length = List.countP isPunct cs := by
  unfold sentencesOf
  rw [addToLast_length, punctGroups_length]

theorem sentencesOf_ne_nil {cs : List Char} (hp : hasPunct cs = true) :
    sentencesOf cs ≠ [] := by
  have hl := sentencesOf_length hp
  have hc := hasPunct_iff_countP.1 hp
  intro h
  rw [h] at hl
  simp at hl
  omega

theorem sentencesOf_flatten {cs : List Char} (hp : hasPunct cs = true) :
    (sentencesOf cs).flatten = cs := by
  unfold sentencesOf
  have hgs : (punctGroups [] cs).1 ≠ [] := by
    intro h
    have := punctGroups_length cs []
    rw [h] at this
    have hc := hasPunct_iff_countP.1 hp
    simp at this
    omega
  rw [addToLast_flatten _ _ hgs, punctGroups_flatten]
  simp

theorem sentencesOf_counts {cs : List Char} (hp : hasPunct cs = true) :
    ∀ s ∈ sentencesOf cs, List.countP isPunct s = 1 := by
  unfold sentencesOf
  obtain ⟨h1, h2⟩ := punctGroups_counts cs [] (by simp)
  exact addToLast_counts _ h2 _ h1

theorem sentencesOf_of_one {cs : List Char}
    (h1 : List.countP isPunct cs = 1) : sentencesOf cs = [cs] := by
  have hp : hasPunct cs = true := hasPunct_iff_countP.2 (by omega)
  have hl := sentencesOf_length hp
  rw [h1] at hl
  obtain ⟨s, hs⟩ := List.length_eq_one.1 hl
  have hf := sentencesOf_flatten hp
  rw [hs] at hf ⊢
  simp only [List.flatten_cons, List.flatten_nil, List.append_nil] at hf
  rw [hf]

/-! ### The time-distribution loop -/

theorem emitRuns_spec (tpc : ℚ) (ss : List (List Char)) : ∀ t : ℚ,
    (∀ s ∈ ss, strip s ≠ []) →
    (emitRuns t tpc ss).map Segment.text = ss.map strip ∧
    (emitRuns t tpc ss).length = ss.length ∧
    List.Chain' (fun a b => b.start = a.endTime) (emitRuns t tpc ss) ∧
    (∀ r, (emitRuns t tpc ss).head? = some r → r.start = t) ∧
    (∀ r, (emitRuns t tpc ss).getLast? = some r →
      r.endTime = t + ((ss.map List.length).sum : ℚ) * tpc) ∧
    ((emitRuns t tpc ss).map (fun r => r.endTime - r.start)).sum
      = ((ss.map List.length).sum : ℚ) * tpc := by
  induction ss with
  | nil =>
    intro t _
    refine ⟨rfl, rfl, List.chain'_nil, ?_, ?_, by simp [emitRuns]⟩
    · intro r hr; cases hr
    · intro r hr; cases hr
  | cons s rest ih =>
    intro t h
    have hs : strip s ≠ [] := h s (List.mem_cons_self s rest)
    obtain ⟨ih1, ih2, ih3, ih4, ih5, ih6⟩ :=
      ih (t + s.length * tpc) (fun x hx => h x (List.mem_cons_of_mem s hx))
    have hemit : emitRuns t tpc (s :: rest) =
        ⟨strip s, t, t + s.length * tpc⟩ ::
          emitRuns (t + s.length * tpc) tpc rest := by
      simp only [emitRuns]
      rw [if_neg hs]
    rw [hemit]
    refine ⟨?_, ?_, ?_, ?_, ?_, ?_⟩
    · simp only [List.map_cons, ih1]
    · simp only [List.length_cons, ih2]
    · refine List.chain'_cons'.2 ⟨?_, ih3⟩
      intro y hy
      exact ih4 y hy
    · intro r hr
      simp only [List.head?_cons, Option.some.injEq] at hr
      rw [← hr]
    · intro r hr
      cases hrest : emitRuns (t + s.length * tpc) tpc rest with
      | nil =>
        rw [hrest] at hr
        simp only [List.getLast?_singleton, Option.some.injEq] at hr
        rw [hrest] at ih2
        have : rest = [] := by
          simpa using ih2.symm
        subst this
        rw [← hr]
        simp
      | cons r0 rs =>
        rw [hrest, List.getLast?_cons_cons] at hr
        rw [← hrest] at hr
        have := ih5 r hr
        rw [this]
        simp only [List.map_cons, List.sum_cons]
        push_cast
        ring
    · simp only [List.map_cons, List.sum_cons, ih6]
      push_cast
      ring

theorem emitRuns_bounds (tpc : ℚ) (htpc : 0 ≤ tpc) (ss : List (List Char)) :
    ∀ t : ℚ, ∀ r ∈ emitRuns t tpc ss,
      t ≤ r.start ∧ r.start ≤ r.endTime ∧
        r.endTime ≤ t + ((ss.map List.length).sum : ℚ) * tpc := by
  induction ss with
  | nil => intro t r hr; simp [emitRuns] at hr
  | cons s rest ih =>
    intro t r hr
    have hlen : (0:ℚ) ≤ (s.length : ℚ) * tpc := by positivity
    have hsum : (0:ℚ) ≤ ((rest.map List.length).sum : ℚ) * tpc := by positivity
    have hcast : ((((s :: rest).map List.length).sum : ℕ) : ℚ)
        = (s.length : ℚ) + ((rest.map List.length).sum : ℚ) := by
      simp only [List.map_cons, List.sum_cons]
      push_cast
      ring
    unfold emitRuns at hr
    by_cases hs : strip s = []
    · rw [if_pos hs] at hr
      obtain ⟨h1, h2, h3⟩ := ih t r hr
      exact ⟨h1, h2, by rw [hcast]; nlinarith⟩
    · rw [if_neg hs] at hr
      rcases List.mem_cons.1 hr with rfl | hr'
      · refine ⟨le_refl _, by simpa using hlen, ?_⟩
        rw [hcast]
        simp only
        nlinarith
      · obtain ⟨h1, h2, h3⟩ := ih (t + s.length * tpc) r hr'
        refine ⟨by nlinarith, h2, ?_⟩
        rw [hcast]
        nlinarith

/-! ### Per-segment facts about the sentence splitter -/

theorem sentencesOf_strip_ne_nil {cs : List Char} (hp : hasPunct cs = true) :
    ∀ s ∈ sentencesOf cs, strip s ≠ [] := by
  intro s hs
  have h1 := sentencesOf_counts hp s hs
  obtain ⟨c, hc, hcp⟩ := List.countP_pos.1 (by omega : 0 < List.countP isPunct s)
  exact strip_ne_nil_of_mem hc (isSpace_of_isPunct hcp)

theorem sentencesOf_total {cs : List Char} (hp : hasPunct cs = true) :
    ((sentencesOf cs).map List.length).sum = cs.length := by
  rw [← List.length_flatten, sentencesOf_flatten hp]

theorem length_ne_zero_of_hasPunct {cs : List Char} (hp : hasPunct cs = true) :
    cs.length ≠ 0 := by
  obtain ⟨c, hc, _⟩ := List.countP_pos.1 (hasPunct_iff_countP.1 hp)
  intro h
  rw [List.length_eq_zero] at h
  rw [h] at hc
  cases hc

theorem splitSegment_of_hasPunct {seg : Segment} (hp : hasPunct seg.text = true) :
    splitSegment seg = emitRuns seg.start
      ((seg.endTime - seg.start) / (seg.text.length : ℚ)) (sentencesOf seg.text) := by
  have hne := sentencesOf_ne_nil hp
  have htot := sentencesOf_total hp
  have hlen := length_ne_zero_of_hasPunct hp
  simp only [splitSegment]
  rw [if_neg (by simp [hp]), if_neg hne, if_neg (by rw [htot]; exact hlen), htot]

theorem splitSegment_of_no_punct {seg : Segment} (hp : hasPunct seg.text = false) :
    splitSegment seg = [seg] := by
  unfold splitSegment
  rw [if_pos hp]

theorem emitRuns_mem_text (tpc : ℚ) (ss : List (List Char)) : ∀ t : ℚ,
    ∀ r ∈ emitRuns t tpc ss, ∃ s ∈ ss, r.text = strip s := by
  induction ss with
  | nil => intro t r hr; simp [emitRuns] at hr
  | cons s rest ih =>
    intro t r hr
    unfold emitRuns at hr
    by_cases hs : strip s = []
    · rw [if_pos hs] at hr
      obtain ⟨s', hs', ht⟩ := ih t r hr
      exact ⟨s', List.mem_cons_of_mem s hs', ht⟩
    · rw [if_neg hs] at hr
      rcases List.mem_cons.1 hr with rfl | hr'
      · exact ⟨s, List.mem_cons_self s rest, rfl⟩
      · obtain ⟨s', hs', ht⟩ := ih (t + s.length * tpc) r hr'
        exact ⟨s', List.mem_cons_of_mem s hs', ht⟩

theorem splitSegment_mem_traits {seg r : Segment} (hr : r ∈ splitSegment seg) :
    hasPunct r.text = false ∨
      (List.countP isPunct r.text = 1 ∧ strip r.text = r.text) := by
  by_cases hp : hasPunct seg.text = true
  · rw [splitSegment_of_hasPunct hp] at hr
    obtain ⟨s, hs, ht⟩ := emitRuns_mem_text _ _ _ r hr
    right
    constructor
    · rw [ht, countP_strip isPunct s (fun c hc => isSpace_of_isPunct hc)]
      exact sentencesOf_counts hp s hs
    · rw [ht, strip_idem]
  · rw [splitSegment_of_no_punct (by simpa using hp)] at hr
    rcases List.mem_singleton.1 hr with rfl
    left
    simpa using hp

theorem splitSegment_stable {r : Segment}
    (h : hasPunct r.text = false ∨
      (List.countP isPunct r.text = 1 ∧ strip r.text = r.text)) :
    splitSegment r = [r] := by
  rcases h with h | ⟨h1, h2⟩
  · exact splitSegment_of_no_punct h
  · have hp : hasPunct r.text = true := hasPunct_iff_countP.2 (by omega)
    have hlen := length_ne_zero_of_hasPunct hp
    have hne : strip r.text ≠ [] := by
      rw [h2]
      intro hnil
      rw [hnil] at hlen
      exact hlen rfl
    rw [splitSegment_of_hasPunct hp, sentencesOf_of_one h1]
    simp only [emitRuns]
    rw [if_neg hne, h2]
    have : r.start + (r.text.length : ℚ) *
        ((r.endTime - r.start) / (r.text.length : ℚ)) = r.endTime := by
      have : (r.text.length : ℚ) ≠ 0 := Nat.cast_ne_zero.2 hlen
      field_simp
    rw [this]

theorem flatten_map_eq_self {α : Type} {l : List α} {f : α → List α}
    (h : ∀ x ∈ l, f x = [x]) : (l.map f).flatten = l := by
  induction l with
  | nil => rfl
  | cons a l ih =>
    simp only [List.map_cons, List.flatten_cons, h a (List.mem_cons_self a l)]
    rw [ih (fun x hx => h x (List.mem_cons_of_mem a hx))]
    rfl

theorem split_at_punctuation_eq_self {l : List Segment}
    (h : ∀ r ∈ l, splitSegment r = [r]) : split_at_punctuation l = l := by
  unfold split_at_punctuation
  exact flatten_map_eq_self h

/-- C7: `split_at_punctuation` is idempotent: applied to its own output
(under exact rational time arithmetic) it returns that output unchanged,
for every input segment list. -/
theorem split_at_punctuation_idempotent (segs : List Segment) :
    split_at_punctuation (split_at_punctuation segs) = split_at_punctuation segs := by
  apply split_at_punctuation_eq_self
  intro r hr
  unfold split_at_punctuation at hr
  obtain ⟨l, hl, hrl⟩ := List.mem_flatten.1 hr
  obtain ⟨seg, _, rfl⟩ := List.mem_map.1 hl
  exact splitSegment_stable (splitSegment_mem_traits hrl)

theorem split_at_punctuation_singleton (seg : Segment) :
    split_at_punctuation [seg] = splitSegment seg := by
  unfold split_at_punctuation
  simp

/-- C2: for an input segment with `start ≤ end`, the runs produced from it
by `split_at_punctuation` conserve time exactly under rational arithmetic:
their durations sum to the segment's duration, the first run starts at the
segment's start, consecutive runs chain with no gap or overlap, and the
last run ends exactly at the segment's end. -/
theorem split_at_punctuation_time_conservation (seg : Segment)
    (h : seg.start ≤ seg.endTime) :
    split_at_punctuation [seg] ≠ [] ∧
    ((split_at_punctuation [seg]).map (fun r => r.endTime - r.start)).sum
      = seg.endTime - seg.start ∧
    (∀ r, (split_at_punctuation [seg]).head? = some r → r.start = seg.start) ∧
    List.Chain' (fun a b => b.start = a.endTime) (split_at_punctuation [seg]) ∧
    (∀ r, (split_at_punctuation [seg]).getLast? = some r →
      r.endTime = seg.endTime) := by
  rw [split_at_punctuation_singleton]
  by_cases hp : hasPunct seg.text = true
  · rw [splitSegment_of_hasPunct hp]
    have hnoskip := sentencesOf_strip_ne_nil hp
    obtain ⟨e1, e2, e3, e4, e5, e6⟩ := emitRuns_spec
      ((seg.endTime - seg.start) / (seg.text.length : ℚ))
      (sentencesOf seg.text) seg.start hnoskip
    have htot := sentencesOf_total hp
    have hlen : (seg.text.length : ℚ) ≠ 0 :=
      Nat.cast_ne_zero.2 (length_ne_zero_of_hasPunct hp)
    have hmul : (((sentencesOf seg.text).map List.length).sum : ℚ) *
        ((seg.endTime - seg.start) / (seg.text.length : ℚ))
          = seg.endTime - seg.start := by
      rw [htot]
      field_simp
    refine ⟨?_, ?_, e4, e3, ?_⟩
    · intro hnil
      rw [hnil] at e2
      exact sentencesOf_ne_nil hp (List.length_eq_zero.1 e2.symm)
    · rw [e6, hmul]
    · intro r hr
      have := e5 r hr
      rw [this, hmul]
      ring
  · rw [splitSegment_of_no_punct (by simpa using hp)]
    refine ⟨by simp, by simp, ?_, by simp, ?_⟩
    · intro r hr
      simp only [List.head?_cons, Option.some.injEq] at hr
      rw [← hr]
    · intro r hr
      simp only [List.getLast?_singleton, Option.some.injEq] at hr
      rw [← hr]

/-- Witness for C2: the theorem applied to the concrete segment
`("one. two", 0, 4)`. -/
theorem split_at_punctuation_time_conservation_witness :
    split_at_punctuation [⟨['o','n','e','.',' ','t','w','o'], 0, 4⟩] ≠ [] ∧
    ((split_at_punctuation [⟨['o','n','e','.',' ','t','w','o'], 0, 4⟩]).map
      (fun r => r.endTime - r.start)).sum = 4 - 0 ∧
    (∀ r, (split_at_punctuation
      [⟨['o','n','e','.',' ','t','w','o'], 0, 4⟩]).head? = some r → r.start = 0) ∧
    List.Chain' (fun a b => b.start = a.endTime)
      (split_at_punctuation [⟨['o','n','e','.',' ','t','w','o'], 0, 4⟩]) ∧
    (∀ r, (split_at_punctuation
      [⟨['o','n','e','.',' ','t','w','o'], 0, 4⟩]).getLast? = some r →
        r.endTime = 4) :=
  split_at_punctuation_time_conservation
    ⟨['o','n','e','.',' ','t','w','o'], 0, 4⟩ (by norm_num)

/-- C10: no input segment is dropped by `split_at_punctuation`, and for a
segment whose text contains terminal punctuation the emitted runs are
exactly the stripped sentence groups: their unstripped texts concatenate
to the whole original text (so any trailing remainder after the last
punctuation mark is carried inside the final run, not emitted separately
or lost), there is exactly one run per punctuation mark, and every run's
text contains a punctuation mark (hence is never whitespace-only, and may
carry punctuation mid-text). -/
theorem split_at_punctuation_no_drop_remainder :
    (∀ seg : Segment, split_at_punctuation [seg] ≠ []) ∧
    (∀ seg : Segment, hasPunct seg.text = true →
      ∃ ss : List (List Char), ss ≠ [] ∧ ss.flatten = seg.text ∧
        (split_at_punctuation [seg]).map Segment.text = ss.map strip ∧
        (split_at_punctuation [seg]).length = List.countP isPunct seg.text ∧
        ∀ r ∈ split_at_punctuation [seg],
          (∃ c ∈ r.text, isPunct c = true) ∧ strip r.text ≠ []) := by
  have main : ∀ seg : Segment, hasPunct seg.text = true →
      ∃ ss : List (List Char), ss ≠ [] ∧ ss.flatten = seg.text ∧
        (split_at_punctuation [seg]).map Segment.text = ss.map strip ∧
        (split_at_punctuation [seg]).length = List.countP isPunct seg.text ∧
        ∀ r ∈ split_at_punctuation [seg],
          (∃ c ∈ r.text, isPunct c = true) ∧ strip r.text ≠ [] := by
    intro seg hp
    rw [split_at_punctuation_singleton, splitSegment_of_hasPunct hp]
    obtain ⟨e1, e2, _, _, _, _⟩ := emitRuns_spec
      ((seg.endTime - seg.start) / (seg.text.length : ℚ))
      (sentencesOf seg.text) seg.start (sentencesOf_strip_ne_nil hp)
    refine ⟨sentencesOf seg.text, sentencesOf_ne_nil hp,
      sentencesOf_flatten hp, e1, by rw [e2, sentencesOf_length hp], ?_⟩
    intro r hr
    obtain ⟨s, hs, ht⟩ := emitRuns_mem_text _ _ _ r hr
    have hcount : List.countP isPunct r.text = 1 := by
      rw [ht, countP_strip isPunct s (fun c hc => isSpace_of_isPunct hc)]
      exact sentencesOf_counts hp s hs
    refine ⟨List.countP_pos.1 (by omega), ?_⟩
    rw [ht, strip_idem]
    exact sentencesOf_strip_ne_nil hp s hs
  refine ⟨?_, main⟩
  intro seg
  by_cases hp : hasPunct seg.text = true
  · obtain ⟨ss, hne, _, _, hlen, _⟩ := main seg hp
    intro hnil
    rw [hnil] at hlen
    have := hasPunct_iff_countP.1 hp
    simp at hlen
    omega
  · rw [split_at_punctuation_singleton, splitSegment_of_no_punct (by simpa using hp)]
    simp

/-- Witness for C10: the second clause applied to the concrete segment
`("one. two", 0, 4)`, whose text has the remainder " two" after its last
punctuation mark. -/
theorem split_at_punctuation_no_drop_remainder_witness :
    ∃ ss : List (List Char), ss ≠ [] ∧
      ss.flatten = ['o','n','e','.',' ','t','w','o'] ∧
      (split_at_punctuation [⟨['o','n','e','.',' ','t','w','o'], 0, 4⟩]).map
        Segment.text = ss.map strip ∧
      (split_at_punctuation [⟨['o','n','e','.',' ','t','w','o'], 0, 4⟩]).length
        = List.countP isPunct ['o','n','e','.',' ','t','w','o'] ∧
      ∀ r ∈ split_at_punctuation [⟨['o','n','e','.',' ','t','w','o'], 0, 4⟩],
        (∃ c ∈ r.text, isPunct c = true) ∧ strip r.text ≠ [] :=
  split_at_punctuation_no_drop_remainder.2
    ⟨['o','n','e','.',' ','t','w','o'], 0, 4⟩ (by decide)

/-! ### The line segmenter as a partition of the word stream -/

/-- Texts joined by single spaces (specification vocabulary for C1). -/
def joinSpace : List (List Char) → List Char
  | [] => []
  | [t] => t
  | t :: t' :: ts => t ++ ' ' :: joinSpace (t' :: ts)

/-- The `current_text` accumulated for a buffered line: each word followed
by one trailing space, as built at transcriber.py lines 99 and 104. -/
def wordsConcat (ws : List Word) : List Char :=
  (ws.map fun w => w.word ++ [' ']).flatten

/-- The start time of the first word of a (non-empty) buffer. -/
def headStart (l : List Word) : ℚ :=
  match l with
  | [] => 0
  | w :: _ => w.start

/-- The segment flushed from one buffered line of words. -/
def mkSeg (g : List Word) : Segment :=
  ⟨strip (wordsConcat g), headStart g, lastEnd g⟩

theorem wordsConcat_nil : wordsConcat [] = [] := rfl

theorem wordsConcat_singleton (w : Word) :
    wordsConcat [w] = w.word ++ [' '] := by
  simp [wordsConcat]

theorem wordsConcat_append (a b : List Word) :
    wordsConcat (a ++ b) = wordsConcat a ++ wordsConcat b := by
  unfold wordsConcat
  rw [List.map_append, List.flatten_append]

theorem headStart_append_cons (a : List Word) (w : Word) (b : List Word) :
    headStart (a ++ w :: b) = headStart ((a ++ [w]) ++ b) := by
  cases a <;> rfl

theorem lineLoop_partition (maxLen : Nat) (maxDur : ℚ) :
    ∀ (ws curLine : List Word) (lineStart : ℚ),
      lineStart = headStart (curLine ++ ws) →
      ∃ gss : List (List Word),
        gss.flatten = curLine ++ ws ∧ (∀ g ∈ gss, g ≠ []) ∧
        lineLoop maxLen maxDur ws curLine (wordsConcat curLine) lineStart
          = gss.map mkSeg := by
  intro ws
  induction ws with
  | nil =>
    intro curLine lineStart hs
    cases curLine with
    | nil => exact ⟨[], by simp, by simp, by simp [lineLoop]⟩
    | cons c cl =>
      refine ⟨[c :: cl], by simp, by simp, ?_⟩
      simp only [lineLoop, List.isEmpty_cons, List.map_cons, List.map_nil]
      rw [List.append_nil] at hs
      rw [hs]
      rfl
  | cons w rest ih =>
    intro curLine lineStart hs
    by_cases hcond : (wordsConcat curLine ++ w.word).length > maxLen ∨
        w.endTime - lineStart > maxDur
    · have hloop : lineLoop maxLen maxDur (w :: rest) curLine
          (wordsConcat curLine) lineStart =
          (if curLine.isEmpty then []
           else [⟨strip (wordsConcat curLine), lineStart, lastEnd curLine⟩]) ++
            lineLoop maxLen maxDur rest [w] (w.word ++ [' ']) w.start := by
        simp only [lineLoop]
        rw [if_pos hcond]
      obtain ⟨gss', h1, h2, h3⟩ := ih [w] w.start (by simp [headStart])
      rw [wordsConcat_singleton] at h3
      cases curLine with
      | nil =>
        refine ⟨gss', by simpa using h1, h2, ?_⟩
        rw [hloop, h3]
        rfl
      | cons c cl =>
        refine ⟨(c :: cl) :: gss', ?_, ?_, ?_⟩
        · simp only [List.flatten_cons, h1]
          simp
        · intro g hg
          rcases List.mem_cons.1 hg with rfl | hg'
          · simp
          · exact h2 g hg'
        · rw [hloop, h3]
          simp only [List.isEmpty_cons, List.map_cons]
          rw [List.append_cons] at hs  -- unused shaping; keep start aligned
          have hstart : lineStart = headStart (c :: cl) := by
            rw [hs]; rfl
          rw [hstart]
          rfl
    · have hloop : lineLoop maxLen maxDur (w :: rest) curLine
          (wordsConcat curLine) lineStart =
          lineLoop maxLen maxDur rest (curLine ++ [w])
            (wordsConcat curLine ++ (w.word ++ [' '])) lineStart := by
        simp only [lineLoop]
        rw [if_neg hcond, List.append_assoc]
      obtain ⟨gss', h1, h2, h3⟩ := ih (curLine ++ [w]) lineStart
        (by rw [hs]; exact headStart_append_cons curLine w rest)
      rw [wordsConcat_append, wordsConcat_singleton] at h3
      refine ⟨gss', ?_, h2, ?_⟩
      · rw [h1, List.append_assoc]
        simp
      · rw [hloop, h3]

theorem split_into_short_lines_partition (batches : List RawSegment)
    (maxLen : Nat) (maxDur : ℚ) :
    ∃ gss : List (List Word),
      gss.flatten = (batches.map RawSegment.result).flatten ∧
      (∀ g ∈ gss, g ≠ []) ∧
      split_into_short_lines batches maxLen maxDur = gss.map mkSeg := by
  induction batches with
  | nil => exact ⟨[], by simp, by simp, by simp [split_into_short_lines]⟩
  | cons b bs ih =>
    obtain ⟨gssr, hr1, hr2, hr3⟩ := ih
    have hsplit : split_into_short_lines (b :: bs) maxLen maxDur =
        (match b.result with
         | [] => []
         | w :: ws => lineLoop maxLen maxDur (w :: ws) [] [] w.start) ++
          split_into_short_lines bs maxLen maxDur := by
      simp [split_into_short_lines]
    cases hb : b.result with
    | nil =>
      refine ⟨gssr, ?_, hr2, ?_⟩
      · rw [hr1]
        simp [hb]
      · rw [hsplit, hb, hr3]
        rfl
    | cons w ws =>
      obtain ⟨gssb, hb1, hb2, hb3⟩ :=
        lineLoop_partition maxLen maxDur (w :: ws) [] w.start (by rfl)
      refine ⟨gssb ++ gssr, ?_, ?_, ?_⟩
      · rw [List.flatten_append, hb1, hr1]
        simp [hb]
      · intro g hg
        rcases List.mem_append.1 hg with hg' | hg'
        · exact hb2 g hg'
        · exact hr2 g hg'
      · rw [hsplit, hb, hr3, List.map_append]
        rw [show wordsConcat [] = [] from rfl] at hb3
        exact congrArg (fun l => l ++ List.map mkSeg gssr) hb3

/-! ### Joining texts with single spaces -/

theorem joinSpace_cons_of_ne_nil (t : List Char) {l : List (List Char)}
    (h : l ≠ []) : joinSpace (t :: l) = t ++ ' ' :: joinSpace l := by
  cases l with
  | nil => cases h rfl
  | cons u l' => rfl

theorem joinSpace_append (a b : List (List Char)) (ha : a ≠ []) (hb : b ≠ []) :
    joinSpace (a ++ b) = joinSpace a ++ ' ' :: joinSpace b := by
  induction a with
  | nil => cases ha rfl
  | cons t a' ih =>
    cases a' with
    | nil =>
      rw [List.singleton_append, joinSpace_cons_of_ne_nil t hb]
      rfl
    | cons t' a'' =>
      rw [List.cons_append, joinSpace_cons_of_ne_nil t
          (by simp : (t' :: a'') ++ b ≠ []),
        ih (by simp), joinSpace_cons_of_ne_nil t (by simp : t' :: a'' ≠ [])]
      simp

theorem joinSpace_flatten (L : List (List (List Char)))
    (hL : ∀ l ∈ L, l ≠ []) :
    joinSpace (L.map joinSpace) = joinSpace L.flatten := by
  induction L with
  | nil => rfl
  | cons l L' ih =>
    cases L' with
    | nil => simp [joinSpace]
    | cons l' L'' =>
      have hl : l ≠ [] := hL l (by simp)
      have hfl : (l' :: L'').flatten ≠ [] := by
        have hl' : l' ≠ [] := hL l' (by simp)
        simp only [List.flatten_cons]
        intro h
        rw [List.append_eq_nil] at h
        exact hl' h.1
      have ih' := ih (fun x hx => hL x (List.mem_cons_of_mem l hx))
      rw [List.map_cons, joinSpace_cons_of_ne_nil (joinSpace l) (by simp), ih']
      rw [show (l :: l' :: L'').flatten = l ++ (l' :: L'').flatten from rfl]
      rw [joinSpace_append l ((l' :: L'').flatten) hl hfl]

theorem joinSpace_ne_nil {t : List Char} {ts : List (List Char)} (ht : t ≠ []) :
    joinSpace (t :: ts) ≠ [] := by
  cases ts with
  | nil => exact ht
  | cons t' ts' =>
    simp only [joinSpace]
    intro h
    rw [List.append_eq_nil] at h
    exact ht h.1

theorem joinSpace_head? {t : List Char} (ts : List (List Char)) (ht : t ≠ []) :
    (joinSpace (t :: ts)).head? = t.head? := by
  cases ts with
  | nil => rfl
  | cons t' ts' =>
    simp only [joinSpace]
    exact List.head?_append_of_ne_nil t ht

theorem getLast?_cons_of_ne_nil {α : Type} (a : α) {l : List α} (h : l ≠ []) :
    (a :: l).getLast? = l.getLast? := by
  cases l with
  | nil => cases h rfl
  | cons b l' => exact List.getLast?_cons_cons

theorem joinSpace_getLast?_mem : ∀ ts : List (List Char), ts ≠ [] →
    (∀ x ∈ ts, x ≠ []) → ∃ u ∈ ts, (joinSpace ts).getLast? = u.getLast? := by
  intro ts
  induction ts with
  | nil => intro h; cases h rfl
  | cons t ts' ih =>
    intro _ hx
    cases ts' with
    | nil => exact ⟨t, by simp, rfl⟩
    | cons t' ts'' =>
      obtain ⟨u, hu, hul⟩ := ih (by simp)
        (fun x hxx => hx x (List.mem_cons_of_mem t hxx))
      refine ⟨u, List.mem_cons_of_mem t hu, ?_⟩
      have hj : joinSpace (t' :: ts'') ≠ [] := joinSpace_ne_nil (hx t' (by simp))
      have hu' : u ≠ [] := hx u (List.mem_cons_of_mem t hu)
      show (t ++ ' ' :: joinSpace (t' :: ts'')).getLast? = u.getLast?
      rw [List.getLast?_append, getLast?_cons_of_ne_nil ' ' hj, hul,
        List.getLast?_eq_getLast u hu']
      rfl

theorem mem_of_head?_eq {α : Type} {l : List α} {a : α}
    (h : l.head? = some a) : a ∈ l := by
  cases l with
  | nil => cases h
  | cons b l' =>
    simp only [List.head?_cons, Option.some.injEq] at h
    rw [← h]
    simp

theorem mem_of_getLast?_eq {α : Type} {l : List α} {a : α}
    (h : l.getLast? = some a) : a ∈ l := by
  have ha : a ∈ l.getLast? := by rw [h]; rfl
  obtain ⟨hne, heq⟩ := List.mem_getLast?_eq_getLast ha
  rw [heq]
  exact List.getLast_mem hne

theorem wordsConcat_eq_joinSpace : ∀ g : List Word, g ≠ [] →
    wordsConcat g = joinSpace (g.map Word.word) ++ [' '] := by
  intro g
  induction g with
  | nil => intro h; cases h rfl
  | cons w g' ih =>
    intro _
    cases g' with
    | nil => simp [wordsConcat, joinSpace]
    | cons w' g'' =>
      have : wordsConcat (w :: w' :: g'') =
          (w.word ++ [' ']) ++ wordsConcat (w' :: g'') := by
        simp [wordsConcat]
      rw [this, ih (by simp), List.map_cons, List.map_cons,
        joinSpace_cons_of_ne_nil w.word (by simp)]
      simp

theorem mkSeg_text_clean {g : List Word} (hg : g ≠ [])
    (hc : ∀ w ∈ g, w.word ≠ [] ∧ ∀ c ∈ w.word, isSpace c = false) :
    (mkSeg g).text = joinSpace (g.map Word.word) := by
  show strip (wordsConcat g) = joinSpace (g.map Word.word)
  rw [wordsConcat_eq_joinSpace g hg]
  obtain ⟨w, g', rfl⟩ := List.exists_cons_of_ne_nil hg
  have hw := hc w (by simp)
  have hJne : joinSpace ((w :: g').map Word.word) ≠ [] := by
    rw [List.map_cons]
    exact joinSpace_ne_nil hw.1
  unfold strip
  rw [lstrip_eq_self, rstrip_append_space]
  · apply rstrip_eq_self
    intro c hcl
    obtain ⟨u, hu, hul⟩ := joinSpace_getLast?_mem ((w :: g').map Word.word)
      (by simp) (by
        intro x hx
        obtain ⟨v, hv, rfl⟩ := List.mem_map.1 hx
        exact (hc v hv).1)
    rw [hul] at hcl
    obtain ⟨v, hv, rfl⟩ := List.mem_map.1 hu
    exact (hc v hv).2 c (mem_of_getLast?_eq hcl)
  · intro c hch
    rw [List.head?_append_of_ne_nil _ hJne, List.map_cons,
      joinSpace_head? _ hw.1] at hch
    exact hw.2 c (mem_of_head?_eq hch)

/-- C1: when every word's text is non-empty and whitespace-free, the
texts of the segments produced by `split_into_short_lines`, joined in
order with single spaces, are exactly the original word texts joined with
single spaces — every word appears exactly once, in order. -/
theorem split_into_short_lines_reconstruction (batches : List RawSegment)
    (maxLen : Nat) (maxDur : ℚ)
    (hclean : ∀ b ∈ batches, ∀ w ∈ b.result,
      w.word ≠ [] ∧ ∀ c ∈ w.word, isSpace c = false) :
    joinSpace ((split_into_short_lines batches maxLen maxDur).map Segment.text)
      = joinSpace (((batches.map RawSegment.result).flatten).map Word.word) := by
  obtain ⟨gss, hflat, hne, heq⟩ :=
    split_into_short_lines_partition batches maxLen maxDur
  have hcg : ∀ g ∈ gss, ∀ w ∈ g,
      w.word ≠ [] ∧ ∀ c ∈ w.word, isSpace c = false := by
    intro g hg w hw
    have hwmem : w ∈ (batches.map RawSegment.result).flatten := by
      rw [← hflat]
      exact List.mem_flatten.2 ⟨g, hg, hw⟩
    obtain ⟨l, hl, hwl⟩ := List.mem_flatten.1 hwmem
    obtain ⟨b, hb, rfl⟩ := List.mem_map.1 hl
    exact hclean b hb w hwl
  rw [heq, List.map_map, ← hflat, List.map_flatten]
  rw [← joinSpace_flatten (gss.map (List.map Word.word)) (by
    intro l hl
    obtain ⟨g, hg, rfl⟩ := List.mem_map.1 hl
    simpa using hne g hg)]
  rw [List.map_map]
  congr 1
  apply List.map_congr_left
  intro g hg
  exact mkSeg_text_clean (hne g hg) (hcg g hg)

/-- Witness for C1: the theorem applied to one concrete batch of two
clean words. -/
theorem split_into_short_lines_reconstruction_witness :
    joinSpace ((split_into_short_lines
        [⟨[], [⟨['h','i'], 0, 1⟩, ⟨['y','o'], 2, 3⟩]⟩] 40 3).map Segment.text)
      = joinSpace ((([⟨[], [⟨['h','i'], 0, 1⟩, ⟨['y','o'], 2, 3⟩]⟩] :
          List RawSegment).map RawSegment.result).flatten.map Word.word) :=
  split_into_short_lines_reconstruction
    [⟨[], [⟨['h','i'], 0, 1⟩, ⟨['y','o'], 2, 3⟩]⟩] 40 3 (by decide)

/-! ### Over-long words (claim C6) -/

theorem strip_append_space (cs : List Char) : strip (cs ++ [' ']) = strip cs := by
  unfold strip lstrip
  rw [List.dropWhile_append]
  by_cases h : (cs.dropWhile isSpace).isEmpty
  · rw [if_pos h]
    have h' : cs.dropWhile isSpace = [] := List.isEmpty_iff.1 h
    rw [h']
    rfl
  · rw [if_neg h]
    exact rstrip_append_space _

theorem lineLoop_overlong_flush (maxLen : Nat) (maxDur : ℚ) (w : Word)
    (hw : w.word.length > maxLen) (rest : List Word) :
    (⟨strip w.word, w.start, w.endTime⟩ : Segment) ∈
      lineLoop maxLen maxDur rest [w] (w.word ++ [' ']) w.start := by
  cases rest with
  | nil =>
    simp only [lineLoop, List.isEmpty_cons, Bool.false_eq_true, if_false]
    rw [strip_append_space]
    simp [lastEnd]
  | cons v rest' =>
    have hcond : ((w.word ++ [' ']) ++ v.word).length > maxLen ∨
        v.endTime - w.start > maxDur := by
      left
      simp only [List.length_append, List.length_cons, List.length_nil]
      omega
    simp only [lineLoop]
    rw [if_pos hcond]
    apply List.mem_append.2
    left
    simp only [List.isEmpty_cons, Bool.false_eq_true, if_false]
    rw [strip_append_space]
    simp [lastEnd]

theorem lineLoop_overlong_mem (maxLen : Nat) (maxDur : ℚ) :
    ∀ (ws curLine : List Word) (curText : List Char) (lineStart : ℚ)
      (w : Word), w ∈ ws → w.word.length > maxLen →
      (⟨strip w.word, w.start, w.endTime⟩ : Segment) ∈
        lineLoop maxLen maxDur ws curLine curText lineStart := by
  intro ws
  induction ws with
  | nil => intro curLine curText lineStart w hw; cases hw
  | cons v rest ih =>
    intro curLine curText lineStart w hw hlen
    rcases List.mem_cons.1 hw with rfl | hw'
    · have hcond : (curText ++ w.word).length > maxLen ∨
          w.endTime - lineStart > maxDur := by
        left
        rw [List.length_append]
        omega
      simp only [lineLoop]
      rw [if_pos hcond]
      exact List.mem_append.2 (Or.inr (lineLoop_overlong_flush maxLen maxDur w hlen rest))
    · by_cases hcond : (curText ++ v.word).length > maxLen ∨
          v.endTime - lineStart > maxDur
      · simp only [lineLoop]
        rw [if_pos hcond]
        exact List.mem_append.2
          (Or.inr (ih [v] (v.word ++ [' ']) v.start w hw' hlen))
      · simp only [lineLoop]
        rw [if_neg hcond]
        exact ih (curLine ++ [v]) (curText ++ v.word ++ [' ']) lineStart w hw' hlen

/-- C6: a word whose text is strictly longer than `max_line_length`,
wherever it appears in a batch, ends up alone on its own line: the output
contains a segment whose text is exactly that word's (stripped) text and
whose start/end times are exactly that word's — the word is neither split
character-wise nor dropped, and no other word shares its line. -/
theorem split_into_short_lines_overlong (batches : List RawSegment)
    (maxLen : Nat) (maxDur : ℚ) (b : RawSegment) (w : Word)
    (hb : b ∈ batches) (hw : w ∈ b.result) (hlen : w.word.length > maxLen) :
    (⟨strip w.word, w.start, w.endTime⟩ : Segment) ∈
      split_into_short_lines batches maxLen maxDur := by
  unfold split_into_short_lines
  apply List.mem_flatten.2
  refine ⟨_, List.mem_map.2 ⟨b, hb, rfl⟩, ?_⟩
  cases hr : b.result with
  | nil => rw [hr] at hw; cases hw
  | cons v vs =>
    simp only [hr]
    rw [hr] at hw
    exact lineLoop_overlong_mem maxLen maxDur (v :: vs) [] [] v.start w hw hlen

/-- Witness for C6: the word "toolong" (7 characters) with
`max_line_length = 4`, preceded and followed by short words. -/
theorem split_into_short_lines_overlong_witness :
    (⟨strip ['t','o','o','l','o','n','g'], 2, 3⟩ : Segment) ∈
      split_into_short_lines
        [⟨[], [⟨['h','i'], 0, 1⟩, ⟨['t','o','o','l','o','n','g'], 2, 3⟩,
               ⟨['y','o'], 4, 5⟩]⟩] 4 10 :=
  split_into_short_lines_overlong
    [⟨[], [⟨['h','i'], 0, 1⟩, ⟨['t','o','o','l','o','n','g'], 2, 3⟩,
           ⟨['y','o'], 4, 5⟩]⟩] 4 10
    ⟨[], [⟨['h','i'], 0, 1⟩, ⟨['t','o','o','l','o','n','g'], 2, 3⟩,
          ⟨['y','o'], 4, 5⟩]⟩
    ⟨['t','o','o','l','o','n','g'], 2, 3⟩
    (List.mem_singleton.2 rfl)
    (by simp)
    (by simp)

/-! ### Segment invariants through the pipeline (claim C3) -/

theorem splitSegment_ne_nil (seg : Segment) : splitSegment seg ≠ [] := by
  by_cases hp : hasPunct seg.text = true
  · rw [splitSegment_of_hasPunct hp]
    obtain ⟨_, e2, _, _, _, _⟩ := emitRuns_spec
      ((seg.endTime - seg.start) / (seg.text.length : ℚ))
      (sentencesOf seg.text) seg.start (sentencesOf_strip_ne_nil hp)
    intro hnil
    rw [hnil] at e2
    exact sentencesOf_ne_nil hp (List.length_eq_zero.1 e2.symm)
  · rw [splitSegment_of_no_punct (by simpa using hp)]
    simp

theorem splitSegment_head?_start {seg r : Segment}
    (h : (splitSegment seg).head? = some r) : r.start = seg.start := by
  by_cases hp : hasPunct seg.text = true
  · rw [splitSegment_of_hasPunct hp] at h
    obtain ⟨_, _, _, e4, _, _⟩ := emitRuns_spec
      ((seg.endTime - seg.start) / (seg.text.length : ℚ))
      (sentencesOf seg.text) seg.start (sentencesOf_strip_ne_nil hp)
    exact e4 r h
  · rw [splitSegment_of_no_punct (by simpa using hp)] at h
    simp only [List.head?_cons, Option.some.injEq] at h
    rw [← h]

theorem splitSegment_getLast?_end {seg r : Segment}
    (h : (splitSegment seg).getLast? = some r) : r.endTime = seg.endTime := by
  by_cases hp : hasPunct seg.text = true
  · rw [splitSegment_of_hasPunct hp] at h
    obtain ⟨_, _, _, _, e5, _⟩ := emitRuns_spec
      ((seg.endTime - seg.start) / (seg.text.length : ℚ))
      (sentencesOf seg.text) seg.start (sentencesOf_strip_ne_nil hp)
    have hlen : (seg.text.length : ℚ) ≠ 0 :=
      Nat.cast_ne_zero.2 (length_ne_zero_of_hasPunct hp)
    have := e5 r h
    rw [this, sentencesOf_total hp]
    field_simp
  · rw [splitSegment_of_no_punct (by simpa using hp)] at h
    simp only [List.getLast?_singleton, Option.some.injEq] at h
    rw [← h]

theorem splitSegment_runs_good {seg : Segment} (hse : seg.start ≤ seg.endTime)
    (hst : strip seg.text ≠ []) :
    ∀ r ∈ splitSegment seg, r.start ≤ r.endTime ∧ strip r.text ≠ [] := by
  by_cases hp : hasPunct seg.text = true
  · rw [splitSegment_of_hasPunct hp]
    intro r hr
    have htpc : 0 ≤ (seg.endTime - seg.start) / (seg.text.length : ℚ) := by
      apply div_nonneg (by linarith)
      positivity
    obtain ⟨_, h2, _⟩ := emitRuns_bounds _ htpc (sentencesOf seg.text) seg.start r hr
    refine ⟨h2, ?_⟩
    obtain ⟨s, hs, ht⟩ := emitRuns_mem_text _ _ _ r hr
    rw [ht, strip_idem]
    exact sentencesOf_strip_ne_nil hp s hs
  · rw [splitSegment_of_no_punct (by simpa using hp)]
    intro r hr
    rcases List.mem_singleton.1 hr with rfl
    exact ⟨hse, hst⟩

theorem splitSegment_chain (seg : Segment) :
    List.Chain' (fun a b => a.endTime ≤ b.start) (splitSegment seg) := by
  by_cases hp : hasPunct seg.text = true
  · rw [splitSegment_of_hasPunct hp]
    obtain ⟨_, _, e3, _, _, _⟩ := emitRuns_spec
      ((seg.endTime - seg.start) / (seg.text.length : ℚ))
      (sentencesOf seg.text) seg.start (sentencesOf_strip_ne_nil hp)
    exact e3.imp (fun a b hab => le_of_eq hab.symm)
  · rw [splitSegment_of_no_punct (by simpa using hp)]
    simp

theorem chain'_imp_mem {α : Type} {R S : α → α → Prop} : ∀ {l : List α},
    List.Chain' R l → (∀ a ∈ l, ∀ b ∈ l, R a b → S a b) → List.Chain' S l := by
  intro l
  induction l with
  | nil => intro _ _; exact List.chain'_nil
  | cons a l' ih =>
    intro hc himp
    obtain ⟨h1, h2⟩ := List.chain'_cons'.1 hc
    refine List.chain'_cons'.2 ⟨?_, ih h2 (fun x hx y hy =>
      himp x (List.mem_cons_of_mem a hx) y (List.mem_cons_of_mem a hy))⟩
    intro y hy
    exact himp a (by simp) y
      (List.mem_cons_of_mem a (mem_of_head?_eq hy)) (h1 y hy)

theorem split_at_punctuation_invariant {segs : List Segment}
    (h1 : ∀ s ∈ segs, s.start ≤ s.endTime ∧ strip s.text ≠ [])
    (h2 : List.Chain' (fun a b => a.endTime ≤ b.start) segs) :
    (∀ r ∈ split_at_punctuation segs,
       r.start ≤ r.endTime ∧ strip r.text ≠ []) ∧
    List.Chain' (fun a b => a.endTime ≤ b.start) (split_at_punctuation segs) := by
  constructor
  · intro r hr
    unfold split_at_punctuation at hr
    obtain ⟨l, hl, hrl⟩ := List.mem_flatten.1 hr
    obtain ⟨seg, hseg, rfl⟩ := List.mem_map.1 hl
    exact splitSegment_runs_good (h1 seg hseg).1 (h1 seg hseg).2 r hrl
  · unfold split_at_punctuation
    rw [List.chain'_flatten (by
      intro hmem
      obtain ⟨seg, _, heq⟩ := List.mem_map.1 hmem
      exact splitSegment_ne_nil seg heq)]
    constructor
    · intro l hl
      obtain ⟨seg, _, rfl⟩ := List.mem_map.1 hl
      exact splitSegment_chain seg
    · rw [List.chain'_map]
      apply h2.imp
      intro s1 s2 h12 x hx y hy
      rw [splitSegment_getLast?_end hx, splitSegment_head?_start hy]
      exact h12

theorem lastEnd_cons_cons (w w' : Word) (g : List Word) :
    lastEnd (w :: w' :: g) = lastEnd (w' :: g) := by
  unfold lastEnd
  rw [List.getLast?_cons_cons]

theorem headStart_le_lastEnd : ∀ {g : List Word}, g ≠ [] →
    List.Chain' (fun a b => a.endTime ≤ b.start) g →
    (∀ w ∈ g, w.start ≤ w.endTime) → headStart g ≤ lastEnd g := by
  intro g
  induction g with
  | nil => intro h; cases h rfl
  | cons w g' ih =>
    intro _ hchain hse
    cases g' with
    | nil => exact hse w (by simp)
    | cons w' g'' =>
      obtain ⟨hrel, hchain'⟩ := List.chain'_cons'.1 hchain
      have h1 : w.start ≤ w.endTime := hse w (by simp)
      have h2 : w.endTime ≤ w'.start := hrel w' rfl
      have h3 := ih (by simp) hchain'
        (fun x hx => hse x (List.mem_cons_of_mem w hx))
      rw [lastEnd_cons_cons]
      calc headStart (w :: w' :: g'') = w.start := rfl
        _ ≤ w'.start := by linarith
        _ = headStart (w' :: g'') := rfl
        _ ≤ lastEnd (w' :: g'') := h3

theorem mem_joinSpace_head {c : Char} {t : List Char}
    (ts : List (List Char)) (h : c ∈ t) : c ∈ joinSpace (t :: ts) := by
  cases ts with
  | nil => exact h
  | cons t' ts' => exact List.mem_append_left _ h

theorem mkSeg_strip_text_ne_nil {g : List Word} (hg : g ≠ [])
    (hc : ∀ w ∈ g, w.word ≠ [] ∧ ∀ c ∈ w.word, isSpace c = false) :
    strip (mkSeg g).text ≠ [] := by
  rw [mkSeg_text_clean hg hc]
  obtain ⟨w, g', rfl⟩ := List.exists_cons_of_ne_nil hg
  have hw := hc w (by simp)
  obtain ⟨c, hcm⟩ := List.exists_mem_of_ne_nil w.word hw.1
  rw [List.map_cons]
  exact strip_ne_nil_of_mem (mem_joinSpace_head _ hcm) (hw.2 c hcm)

theorem split_into_short_lines_invariant (batches : List RawSegment)
    (maxLen : Nat) (maxDur : ℚ)
    (hw : ∀ b ∈ batches, ∀ w ∈ b.result,
      w.start ≤ w.endTime ∧ w.word ≠ [] ∧ ∀ c ∈ w.word, isSpace c = false)
    (hchain : List.Chain' (fun a b => a.endTime ≤ b.start)
      ((batches.map RawSegment.result).flatten)) :
    (∀ s ∈ split_into_short_lines batches maxLen maxDur,
      s.start ≤ s.endTime ∧ strip s.text ≠ []) ∧
    List.Chain' (fun a b => a.endTime ≤ b.start)
      (split_into_short_lines batches maxLen maxDur) := by
  obtain ⟨gss, hflat, hne, heq⟩ :=
    split_into_short_lines_partition batches maxLen maxDur
  have hmem : ∀ g ∈ gss, ∀ w ∈ g,
      w.start ≤ w.endTime ∧ w.word ≠ [] ∧ ∀ c ∈ w.word, isSpace c = false := by
    intro g hg w hwg
    have hwmem : w ∈ (batches.map RawSegment.result).flatten := by
      rw [← hflat]
      exact List.mem_flatten.2 ⟨g, hg, hwg⟩
    obtain ⟨l, hl, hwl⟩ := List.mem_flatten.1 hwmem
    obtain ⟨b, hb, rfl⟩ := List.mem_map.1 hl
    exact hw b hb w hwl
  rw [← hflat] at hchain
  have hnotin : [] ∉ gss := fun h0 => hne [] h0 rfl
  obtain ⟨hin, hacross⟩ := (List.chain'_flatten hnotin).1 hchain
  rw [heq]
  constructor
  · intro s hs
    obtain ⟨g, hg, rfl⟩ := List.mem_map.1 hs
    refine ⟨?_, ?_⟩
    · exact headStart_le_lastEnd (hne g hg) (hin g hg)
        (fun w hwg => (hmem g hg w hwg).1)
    · exact mkSeg_strip_text_ne_nil (hne g hg)
        (fun w hwg => (hmem g hg w hwg).2)
  · rw [List.chain'_map]
    apply chain'_imp_mem hacross
    intro g1 hg1 g2 hg2 hrel
    have h1 := hne g1 hg1
    have h2 := hne g2 hg2
    obtain ⟨y, g2', rfl⟩ := List.exists_cons_of_ne_nil h2
    have hx : g1.getLast? = some (g1.getLast h1) :=
      List.getLast?_eq_getLast g1 h1
    have hle := hrel (g1.getLast h1) (by rw [hx]; rfl) y rfl
    show lastEnd g1 ≤ headStart (y :: g2')
    unfold lastEnd
    rw [hx]
    exact hle

/-- C3: when all words have `start ≤ end`, non-empty whitespace-free text,
and are chronologically non-overlapping (each word's end at or before the
next word's start, across batch boundaries too), the composed pipeline
`split_at_punctuation ∘ split_into_short_lines` yields segments that all
satisfy the Segment invariant — `start ≤ end` and non-empty trimmed
text — and that are sorted by non-decreasing start. -/
theorem pipeline_segment_invariant (batches : List RawSegment)
    (maxLen : Nat) (maxDur : ℚ)
    (hw : ∀ b ∈ batches, ∀ w ∈ b.result,
      w.start ≤ w.endTime ∧ w.word ≠ [] ∧ ∀ c ∈ w.word, isSpace c = false)
    (hchain : List.Chain' (fun a b => a.endTime ≤ b.start)
      ((batches.map RawSegment.result).flatten)) :
    (∀ s ∈ split_at_punctuation (split_into_short_lines batches maxLen maxDur),
       s.start ≤ s.endTime ∧ strip s.text ≠ []) ∧
    List.Chain' (fun a b => a.start ≤ b.start)
      (split_at_punctuation (split_into_short_lines batches maxLen maxDur)) := by
  obtain ⟨g1, g2⟩ :=
    split_into_short_lines_invariant batches maxLen maxDur hw hchain
  obtain ⟨p1, p2⟩ := split_at_punctuation_invariant g1 g2
  refine ⟨p1, ?_⟩
  apply chain'_imp_mem p2
  intro a ha b hb hab
  have := (p1 a ha).1
  linarith

/-- Witness for C3: two batches of one clean word each, in chronological
order. -/
theorem pipeline_segment_invariant_witness :
    (∀ s ∈ split_at_punctuation (split_into_short_lines
        [⟨[], [⟨['h','i'], 0, 1⟩]⟩, ⟨[], [⟨['y','o'], 2, 3⟩]⟩] 40 3),
       s.start ≤ s.endTime ∧ strip s.text ≠ []) ∧
    List.Chain' (fun a b => a.start ≤ b.start)
      (split_at_punctuation (split_into_short_lines
        [⟨[], [⟨['h','i'], 0, 1⟩]⟩, ⟨[], [⟨['y','o'], 2, 3⟩]⟩] 40 3)) :=
  pipeline_segment_invariant
    [⟨[], [⟨['h','i'], 0, 1⟩]⟩, ⟨[], [⟨['y','o'], 2, 3⟩]⟩] 40 3
    (by decide)
    (by
      rw [show (List.map RawSegment.result
          [⟨[], [⟨['h','i'], 0, 1⟩]⟩, ⟨[], [⟨['y','o'], 2, 3⟩]⟩]).flatten
        = [⟨['h','i'], 0, 1⟩, ⟨['y','o'], 2, 3⟩] from rfl]
      exact List.chain'_pair.2 (by norm_num))

/-! ### Error behaviour of the transcription entry point (claim C8) -/

/-- C8 counterexample: the source does not raise distinct
`AudioFormatError`/`EngineError` exceptions.  All three situations —
model-load failure, non-mono/non-16-bit input, and a successful run that
detected no speech — produce the identical return value `[]` (errors are
only written to the UI), so they are not distinguishable from the
function's result as the claim states.  Shown at concrete inputs,
including a non-empty recognition stream. -/
theorem transcribe_audio_not_distinguishable :
    transcribe_audio false ⟨1, 2, "NONE"⟩ [⟨['h','i'], [⟨['h','i'], 0, 1⟩]⟩]
      = transcribe_audio true ⟨2, 2, "NONE"⟩ [⟨['h','i'], [⟨['h','i'], 0, 1⟩]⟩] ∧
    transcribe_audio true ⟨2, 2, "NONE"⟩ [⟨['h','i'], [⟨['h','i'], 0, 1⟩]⟩]
      = transcribe_audio true ⟨1, 2, "NONE"⟩ [] ∧
    transcribe_audio true ⟨1, 2, "NONE"⟩ [] = ([] : List RawSegment) := by
  refine ⟨?_, ?_, rfl⟩ <;> decide

/-- C8 amended: `transcribe_audio` catches every failure internally and
returns the empty list — on model-load failure, on an input stream that
is not mono 16-bit uncompressed PCM, and on a successful run in which the
recognizer produced no result with non-empty text; none of these outcomes
is distinguishable from the others by the return value.  On a good stream
with a loaded model it returns exactly the recognizer results whose text
is non-empty after stripping. -/
theorem transcribe_audio_error_returns :
    (∀ (wf : AudioStream) (recs : List RawSegment),
      transcribe_audio false wf recs = []) ∧
    (∀ (modelLoads : Bool) (wf : AudioStream) (recs : List RawSegment),
      (wf.nchannels ≠ 1 ∨ wf.sampwidth ≠ 2 ∨ wf.comptype ≠ "NONE") →
      transcribe_audio modelLoads wf recs = []) ∧
    (∀ wf : AudioStream, transcribe_audio true wf [] = []) ∧
    (∀ recs : List RawSegment, transcribe_audio true ⟨1, 2, "NONE"⟩ recs
      = recs.filter fun r => strip r.text ≠ []) := by
  refine ⟨fun wf recs => rfl, ?_, ?_, ?_⟩
  · intro modelLoads wf recs hbad
    cases modelLoads with
    | false => rfl
    | true =>
      unfold transcribe_audio
      rw [if_neg (by simp), if_pos hbad]
  · intro wf
    unfold transcribe_audio
    by_cases hbad : wf.nchannels ≠ 1 ∨ wf.sampwidth ≠ 2 ∨ wf.comptype ≠ "NONE"
    · rw [if_neg (by simp), if_pos hbad]
    · rw [if_neg (by simp), if_neg hbad]
      rfl
  · intro recs
    unfold transcribe_audio
    rw [if_neg (by simp), if_neg (by simp)]

/-- Witness for C8's amended statement: the second clause applied to a
stereo stream with the model loaded and a non-empty recognition stream. -/
theorem transcribe_audio_error_returns_witness :
    transcribe_audio true ⟨2, 2, "NONE"⟩ [⟨['h','i'], [⟨['h','i'], 0, 1⟩]⟩]
      = [] :=
  transcribe_audio_error_returns.2.1 true ⟨2, 2, "NONE"⟩
    [⟨['h','i'], [⟨['h','i'], 0, 1⟩]⟩] (by decide)

/-! ### Burn-in failure is non-fatal (claim C9) -/

/-- C9: when transcription produced batches, segmentation produced
segments, and subtitle creation succeeded, but all three ffmpeg burn-in
strategies fail (so `burn_subtitles_into_video` raises), `process_video`
still returns a result record: `subtitle_burned` is false,
`output_video_path` is the original input video path, and the two
subtitle paths are the files written before the burn attempt. -/
theorem process_video_burn_failure (videoPath tempDir baseName : String)
    (rawSegments : List RawSegment) (maxLen : Nat) (maxDur : ℚ)
    (hraw : rawSegments ≠ [])
    (hsegs : split_at_punctuation
      (split_into_short_lines rawSegments maxLen maxDur) ≠ []) :
    (∃ msg, burn_subtitles_into_video false false false
      ("output/videos/" ++ baseName ++ "_with_subs.mp4") = .error msg) ∧
    process_video videoPath tempDir baseName rawSegments maxLen maxDur
        true false false false =
      some ⟨videoPath, tempDir ++ "/" ++ baseName ++ ".srt",
        "output/subtitles/" ++ baseName ++ ".srt",
        split_at_punctuation (split_into_short_lines rawSegments maxLen maxDur),
        false⟩ := by
  refine ⟨⟨"Failed to burn subtitles after multiple attempts.", rfl⟩, ?_⟩
  simp only [process_video]
  rw [if_neg hraw, if_neg hsegs, if_neg (by simp)]
  rfl

/-- Witness for C9: one batch with the single word "hi"; the subtitle
pipeline yields the single segment `("hi", 0, 1)` and the result record
falls back to the input video path with the burned flag false. -/
theorem process_video_burn_failure_witness :
    process_video "v.mp4" "tmp" "v" [⟨['h','i'], [⟨['h','i'], 0, 1⟩]⟩]
        40 3 true false false false =
      some ⟨"v.mp4", "tmp/v.srt", "output/subtitles/v.srt",
        [⟨['h','i'], 0, 1⟩], false⟩ := by
  have hpipe : split_at_punctuation (split_into_short_lines
      [⟨['h','i'], [⟨['h','i'], 0, 1⟩]⟩] 40 3) = [⟨['h','i'], 0, 1⟩] := by
    have hlines : split_into_short_lines
        [⟨['h','i'], [⟨['h','i'], 0, 1⟩]⟩] 40 3 = [⟨['h','i'], 0, 1⟩] := by
      norm_num [split_into_short_lines, lineLoop, lastEnd, strip, lstrip,
        rstrip, isSpace, List.dropWhile]
      decide
    rw [hlines, split_at_punctuation_singleton,
      splitSegment_of_no_punct (by decide)]
  have h := (process_video_burn_failure "v.mp4" "tmp" "v"
    [⟨['h','i'], [⟨['h','i'], 0, 1⟩]⟩] 40 3 (by simp)
    (by rw [hpipe]; simp)).2
  rw [hpipe] at h
  exact h

end SubGen
